import Mathlib

/-!
# Verification of the cbrkit excerpt (string similarity, retrieval, reuse)

Shallow embedding of the Python sources:

* `src/src/cbrkit/retrieval.py`  — retrieval pipeline (`apply_queries`,
  `QueryResultStep.build`, `dropout`, `chunkify`, `Result.as_dict`)
* `src/src/cbrkit/reuse/apply.py` — reuse pipeline (`apply_batches`)
* `src/cbrkit/sim/strings.py`     — string similarity library (`_cosine`, `table`)

Python `dict`s are modelled as association lists (`List (K × V)`) whose
iteration order is the list order; dict keys are unique in Python, which shows
up as `Nodup` hypotheses where a theorem needs it.  Fallible Python code
(`assert`, `KeyError`, `ValueError` from `zip(strict=True)`,
`NotImplementedError`, `FileNotFoundError`) is embedded via `Except PyErr`.
Similarity values are modelled as `ℚ` (the sources treat them as opaque
comparable numbers).

The modules `cbrkit/helpers.py` and `cbrkit/model.py` are imported by the
sources but are not part of the excerpt; the definitions taken from them are
marked `Modelled from the spec:` in their doc comments.
-/

/-- Error kinds raised by the embedded Python code. -/
inductive PyErr where
  | assertionError
  | keyError
  | valueError
  | notImplementedError
  | fileNotFoundError
deriving DecidableEq, Repr

/-- Computations that can raise a Python exception. -/
abbrev Exc (α : Type _) := Except PyErr α

/-- First-match lookup in an association list (Python `dict.__getitem__`
semantics; Python dicts have unique keys, so first match is the match). -/
def lookup {K V : Type _} [DecidableEq K] : List (K × V) → K → Option V
  | [], _ => none
  | p :: rest, k => if p.1 = k then some p.2 else lookup rest k

/-- `d[k]` on a Python dict: raises `KeyError` when the key is absent. -/
def getItem {K V : Type _} [DecidableEq K] (m : List (K × V)) (k : K) : Exc V :=
  match lookup m k with
  | some v => .ok v
  | none => .error .keyError

/-- Effectful map over a list, evaluated left to right (the evaluation order
of a Python comprehension): the first raised exception aborts the loop. -/
def mapME {A B : Type _} (f : A → Exc B) : List A → Exc (List B)
  | [] => pure []
  | a :: l => do
    let b ← f a
    let rest ← mapME f l
    pure (b :: rest)

/-- Plain nested JSON-like structure, the target of `dataclasses.asdict`
style serialization. -/
inductive Json where
  | null
  | bool (b : Bool)
  | num (q : ℚ)
  | str (s : String)
  | arr (items : List Json)
  | obj (fields : List (String × Json))

/-- `del d[k]` on an object (the key is always present at the call sites
modelled here); on non-objects this is the identity. -/
def Json.objDelete : Json → String → Json
  | .obj fields, k => .obj (fields.filter fun p => decide (p.1 ≠ k))
  | j, _ => j

/-- `true` when an object has field `k`. -/
def Json.hasKey : Json → String → Bool
  | .obj fields, k => fields.any fun p => decide (p.1 = k)
  | _, _ => false

/-- Modelled from the spec: `cbrkit.helpers.unpack_sim` ("given a similarity
value that may be a bare scalar or a richer structured value, extract the
scalar").  Similarity values are embedded as bare scalars (`ℚ`), so the
unwrapping is the identity. -/
def unpack_sim (s : ℚ) : ℚ := s

/-- Stable insert of one `(key, similarity)` entry into a list sorted by
descending similarity: the new entry goes before the first strictly smaller
entry, so earlier entries win ties. -/
def insertDesc {K : Type _} (x : K × ℚ) : List (K × ℚ) → List (K × ℚ)
  | [] => [x]
  | y :: ys =>
    if unpack_sim x.2 < unpack_sim y.2 then y :: insertDesc x ys
    else x :: y :: ys

/-- Stable insertion sort by descending similarity value. -/
def sortDesc {K : Type _} : List (K × ℚ) → List (K × ℚ)
  | [] => []
  | x :: xs => insertDesc x (sortDesc xs)

/-- Modelled from the spec: `cbrkit.helpers.similarities2ranking` ("given a
similarity map, produce an ordered sequence of keys sorted by descending
scalar similarity value", ties broken stably by map iteration order). -/
def similarities2ranking {K : Type _} (similarities : List (K × ℚ)) : List K :=
  (sortDesc similarities).map Prod.fst

namespace Strings

/-!
## `src/cbrkit/sim/strings.py`

`_cosine` guards the external `scipy.spatial.distance._cosine` call: the
distance function itself is a third-party boundary and is therefore a
parameter `cosineDist` of the embedding.  `np.any(u)` is true iff some entry
of `u` is nonzero.
-/

/-- `np.any(u)`: some entry is nonzero (truthy). -/
def npAny (u : List ℚ) : Bool :=
  u.any fun x => decide (x ≠ 0)

/-- `_cosine(u, v)` from `strings.py`: `1 - scipy_dist._cosine(u, v)` when both
vectors have a nonzero entry, else `0.0`.  `cosineDist` stands for the external
`scipy` cosine-distance routine. -/
def pyCosine (cosineDist : List ℚ → List ℚ → ℚ) (u v : List ℚ) : ℚ :=
  if npAny u && npAny v then 1 - cosineDist u v else 0

/-- Split a character list on `'/'` (empty components preserved). -/
def splitOnSlash : List Char → List (List Char)
  | [] => [[]]
  | c :: cs =>
    match splitOnSlash cs with
    | [] => [[]]
    | r :: rs => if c = '/' then [] :: r :: rs else (c :: r) :: rs

/-- `pathlib.PurePath.name`: final non-empty path component (as characters). -/
def pathName (p : String) : List Char :=
  ((splitOnSlash p.toList).filter fun comp => decide (comp ≠ [])).getLastD []

/-- Index of the last `'.'` in a character list, if any. -/
def lastDotIdx (cs : List Char) : Option ℕ :=
  (cs.reverse.findIdx? fun c => decide (c = '.')).map fun j => cs.length - 1 - j

/-- `pathlib.PurePath.suffix`: `name[i:]` where `i` is the index of the last
dot of the name, provided `0 < i < len(name) - 1`; otherwise the empty
string. -/
def pathSuffix (p : String) : String :=
  let cs := pathName p
  match lastDotIdx cs with
  | some i => if 0 < i ∧ i < cs.length - 1 then String.mk (cs.drop i) else ""
  | none => ""

/-- Modelled from the spec: `cbrkit.sim.generic.table` — an immutable
collection of `(keyA, keyB, score)` triples with a symmetry flag and a default
score (§4.6). -/
structure GenericTable where
  entries : List (String × String × ℚ)
  symmetric : Bool
  defaultScore : ℚ

/-- Modelled from the spec: pairwise lookup of `cbrkit.sim.generic.table` —
"if `(x,y)` (or `(y,x)` when symmetric) is present, return its score;
otherwise return the default", with "last entry wins" among duplicates
(§4.6/§9). -/
def GenericTable.sim (t : GenericTable) (x y : String) : ℚ :=
  match t.entries.reverse.find? fun e =>
      decide (e.1 = x ∧ e.2.1 = y) || (t.symmetric && decide (e.1 = y ∧ e.2.1 = x)) with
  | some e => e.2.2
  | none => t.defaultScore

/-- Argument of `table`: either explicit entries or a file path. -/
inductive TableSource where
  | inline (entries : List (String × String × ℚ))
  | path (p : String)

/-- `table(entries, symmetric, default)` from `strings.py`.  When given a
path, a non-`.csv` suffix raises `NotImplementedError` before the file is
opened; otherwise the file is opened (raising `FileNotFoundError` when it does
not exist) and parsed.  The filesystem and the `csv` module are external
boundaries: `fs` maps a path to the parsed rows of the file, when the file
exists. -/
def table (fs : String → Option (List (String × String × ℚ)))
    (entries : TableSource) (symmetric : Bool) (defaultScore : ℚ) :
    Exc GenericTable :=
  match entries with
  | .inline es => .ok ⟨es, symmetric, defaultScore⟩
  | .path p =>
    if pathSuffix p ≠ ".csv" then .error .notImplementedError
    else
      match fs p with
      | some rows => .ok ⟨rows, symmetric, defaultScore⟩
      | none => .error .fileNotFoundError

end Strings

namespace Retrieval

/-!
## `src/src/cbrkit/retrieval.py`

The retrieval data model and pipeline.  A `RetrieverFunc` bundles the callable
with the structured description `get_metadata` extracts from it (the helper
itself lives in the out-of-excerpt `cbrkit/helpers.py`; per spec §4.3 it
"retrieves its structured description ... otherwise produces an empty
description" and never fails, so it is embedded as a data field).
-/

/-- `QueryResultStep` dataclass of `retrieval.py`: one step's outcome for one
query. -/
structure QueryResultStep (C V : Type) where
  similarities : List (C × ℚ)
  ranking : List C
  casebase : List (C × V)
deriving DecidableEq

/-- `QueryResultStep.build(similarities, full_casebase)`: derives the ranking
and restricts `full_casebase` to the scored keys; a scored key absent from
`full_casebase` raises `KeyError`. -/
def QueryResultStep.build {C V : Type} [DecidableEq C]
    (similarities : List (C × ℚ)) (full_casebase : List (C × V)) :
    Exc (QueryResultStep C V) := do
  let ranking := similarities2ranking similarities
  let casebase ← mapME (fun key => do
    pure (key, ← getItem full_casebase key)) (similarities.map Prod.fst)
  pure ⟨similarities, ranking, casebase⟩

/-- `ResultStep` dataclass: one pipeline stage across all queries. -/
structure ResultStep (Q C V : Type) where
  queries : List (Q × QueryResultStep C V)
  metadata : Json

/-- `Result` dataclass: the full pipeline run. -/
structure Result (Q C V : Type) where
  steps : List (ResultStep Q C V)

/-- A retriever function together with its `get_metadata` description. -/
structure RetrieverFunc (C V : Type) where
  call : List (List (C × V) × V) → List (List (C × ℚ))
  metadata : Json

/-- The dict comprehension of `apply_queries` that zips query keys with the
retriever's per-query results under `strict=True` and builds one
`QueryResultStep` per query against the full input casebase.  A length
mismatch raises `ValueError` once the shorter side is exhausted. -/
def buildStepQueries {Q C V : Type} [DecidableEq C] (full_casebase : List (C × V)) :
    List (Q × V) → List (List (C × ℚ)) → Exc (List (Q × QueryResultStep C V))
  | [], [] => pure []
  | q :: qs, rc :: rcs => do
    let s ← QueryResultStep.build rc full_casebase
    let rest ← buildStepQueries full_casebase qs rcs
    pure ((q.1, s) :: rest)
  | _, _ => .error .valueError

/-- One iteration of the `for retriever_func in retrievers` loop of
`apply_queries`: assemble the `(current casebase, query)` pairs, invoke the
retriever, build the step, and derive the next `current_casebases`. -/
def applyStep {Q C V : Type} [DecidableEq Q] [DecidableEq C]
    (casebase : List (C × V)) (queries : List (Q × V)) (r : RetrieverFunc C V)
    (current : List (Q × List (C × V))) :
    Exc (ResultStep Q C V × List (Q × List (C × V))) := do
  let inputs ← mapME (fun q => do
    pure ((← getItem current q.1), q.2)) queries
  let results := r.call inputs
  let stepQueries ← buildStepQueries casebase queries results
  let step : ResultStep Q C V := ⟨stepQueries, r.metadata⟩
  let nextCur ← mapME (fun q => do
    pure (q.1, (← getItem stepQueries q.1).casebase)) queries
  pure (step, nextCur)

/-- The `for retriever_func in retrievers` loop of `apply_queries`. -/
def applyLoop {Q C V : Type} [DecidableEq Q] [DecidableEq C]
    (casebase : List (C × V)) (queries : List (Q × V)) :
    List (RetrieverFunc C V) → List (Q × List (C × V)) →
    Exc (List (ResultStep Q C V))
  | [], _ => pure []
  | r :: rs, current => do
    let (step, nextCur) ← applyStep casebase queries r current
    let rest ← applyLoop casebase queries rs nextCur
    pure (step :: rest)

/-- `apply_queries(casebase, queries, retrievers)`: asserts at least one
retriever, initializes every query's current casebase to the full input
casebase, then runs the retriever loop. -/
def apply_queries {Q C V : Type} [DecidableEq Q] [DecidableEq C]
    (casebase : List (C × V)) (queries : List (Q × V))
    (retrievers : List (RetrieverFunc C V)) : Exc (Result Q C V) :=
  if retrievers.length > 0 then do
    let steps ← applyLoop casebase queries retrievers
      (queries.map fun q => (q.1, casebase))
    pure ⟨steps⟩
  else .error .assertionError

/-- `chunkify(val, k)`: consecutive slices `val[i : i + k]` for
`i = 0, k, 2k, ...`.  In Python `k = 0` raises `ValueError` from `range`; the
embedding returns `[]` there, and every claim about `chunkify` assumes
`k ≥ 1`. -/
def chunkify {V : Type} (val : List V) (k : ℕ) : List (List V) :=
  if k = 0 then []
  else
    match val with
    | [] => []
    | v :: vs => (v :: vs).take k :: chunkify ((v :: vs).drop k) k
termination_by val.length
decreasing_by
  simp only [List.length_drop, List.length_cons]
  omega

/-- `similarities[key]` as used inside `dropout._filter`, where `key` is
always drawn from the keys of `similarities` (so the `.getD` default is never
reached). -/
def simOf {C : Type} [DecidableEq C] (similarities : List (C × ℚ)) (k : C) : ℚ :=
  (lookup similarities k).getD 0

/-- `dropout._filter(similarities)`: rank the keys, drop those below
`min_similarity`, then those above `max_similarity`, then truncate to `limit`,
and rebuild the similarity dict over the surviving keys (all drawn from
`similarities`, so the final lookups always succeed). -/
def dropoutFilter {C : Type} [DecidableEq C] (limit : Option ℕ)
    (min_similarity max_similarity : Option ℚ) (similarities : List (C × ℚ)) :
    List (C × ℚ) :=
  let ranking := similarities2ranking similarities
  let r1 := match min_similarity with
    | some m => ranking.filter fun key => decide (m ≤ unpack_sim (simOf similarities key))
    | none => ranking
  let r2 := match max_similarity with
    | some m => r1.filter fun key => decide (unpack_sim (simOf similarities key) ≤ m)
    | none => r1
  let r3 := match limit with
    | some l => r2.take l
    | none => r2
  r3.filterMap fun key => (lookup similarities key).map fun s => (key, s)

/-- The `dropout` retriever wrapper: forwards the batch to the inner retriever
and post-filters each per-query similarity map with `_filter`. -/
def dropout {C V : Type} [DecidableEq C] (retriever_func : RetrieverFunc C V)
    (limit : Option ℕ) (min_similarity max_similarity : Option ℚ) :
    RetrieverFunc C V :=
  { call := fun pairs =>
      (retriever_func.call pairs).map
        (dropoutFilter limit min_similarity max_similarity)
    metadata := Json.obj
      [("limit", match limit with | some l => Json.num l | none => Json.null),
       ("min_similarity", match min_similarity with
         | some m => Json.num m | none => Json.null),
       ("max_similarity", match max_similarity with
         | some m => Json.num m | none => Json.null)] }

/-- `dataclasses.asdict` on one `QueryResultStep`, given encodings of keys and
case values into the plain nested structure. -/
def QueryResultStep.asdict {C V : Type} (encC : C → String) (encV : V → Json)
    (s : QueryResultStep C V) : Json :=
  Json.obj
    [("similarities", Json.obj (s.similarities.map fun p => (encC p.1, Json.num p.2))),
     ("ranking", Json.arr (s.ranking.map fun k => Json.str (encC k))),
     ("casebase", Json.obj (s.casebase.map fun p => (encC p.1, encV p.2)))]

/-- `Result.as_dict()`: `dataclasses.asdict` of the whole tree followed by the
loop that deletes the `casebase` entry of every per-query item of every
step. -/
def Result.as_dict {Q C V : Type} (encQ : Q → String) (encC : C → String)
    (encV : V → Json) (r : Result Q C V) : Json :=
  Json.obj
    [("steps", Json.arr (r.steps.map fun step =>
      Json.obj
        [("queries", Json.obj (step.queries.map fun p =>
          (encQ p.1, Json.objDelete (p.2.asdict encC encV) "casebase"))),
         ("metadata", step.metadata)]))]

/-- Key set of the per-query casebase of one step, for one query key (`[]`
when the query key is absent from the step). -/
def keysAt {Q C V : Type} [DecidableEq Q] (s : ResultStep Q C V) (qk : Q) :
    List C :=
  match lookup s.queries qk with
  | some qrs => qrs.casebase.map Prod.fst
  | none => []

end Retrieval

namespace Reuse

/-!
## `src/src/cbrkit/reuse/apply.py`

The reuse pipeline.  `apply.py` imports `QueryResultStep`, `Result` and
`ResultStep` from `cbrkit/model.py`, which is not part of the excerpt; those
three are modelled from the spec (§3, §4.2) and marked accordingly.
-/

/-- Modelled from the spec: the reuse-stage `QueryResultStep` of
`cbrkit/model.py` — the retrieval-stage fields plus the `query` value retained
for the next pipeline stage (§3, §4.2). -/
structure QueryResultStep (C V : Type) where
  similarities : List (C × ℚ)
  ranking : List C
  casebase : List (C × V)
  query : V
deriving DecidableEq

/-- Modelled from the spec: the reuse-stage
`QueryResultStep.build(adapted_sims, adapted_casebase, query)` of
`cbrkit/model.py` — "same ranking derivation, but `casebase` is the full
adapted casebase (not restricted to scored keys), and `query` is retained"
(§4.2); argument order as at the call site in `apply.py`. -/
def QueryResultStep.build {C V : Type} (similarities : List (C × ℚ))
    (casebase : List (C × V)) (query : V) : QueryResultStep C V :=
  ⟨similarities, similarities2ranking similarities, casebase, query⟩

/-- Modelled from the spec: the reuse-stage `ResultStep` of
`cbrkit/model.py` (§3). -/
structure ResultStep (Q C V : Type) where
  queries : List (Q × QueryResultStep C V)
  metadata : Json

/-- Modelled from the spec: the reuse-stage `Result` of `cbrkit/model.py`
(§3). -/
structure Result (Q C V : Type) where
  steps : List (ResultStep Q C V)

/-- A reuser function (per pair: adapted casebase and adapted similarity map)
together with its `get_metadata` description. -/
structure ReuserFunc (C V : Type) where
  call : List (List (C × V) × V) → List (List (C × V) × List (C × ℚ))
  metadata : Json

/-- The dict comprehension of `apply_batches` that zips the batch's query keys
with the reuser's results under `strict=True`, building each step with the
adapted similarities, the adapted casebase and `current_batches[query_key][1]`
(the query value tracked for that key).  A length mismatch raises
`ValueError` once the shorter side is exhausted. -/
def buildStepQueries {Q C V : Type} [DecidableEq Q]
    (current : List (Q × (List (C × V) × V))) :
    List Q → List (List (C × V) × List (C × ℚ)) →
    Exc (List (Q × QueryResultStep C V))
  | [], [] => pure []
  | qk :: qks, res :: rest => do
    let cur ← getItem current qk
    let s := QueryResultStep.build res.2 res.1 cur.2
    let tail ← buildStepQueries current qks rest
    pure ((qk, s) :: tail)
  | _, _ => .error .valueError

/-- One iteration of the `for reuser in reusers` loop of `apply_batches`:
invoke the reuser on the current `(casebase, query)` pairs, build the step,
and derive the next `current_batches` from each step's casebase and query. -/
def applyReuser {Q C V : Type} [DecidableEq Q] (u : ReuserFunc C V)
    (current : List (Q × (List (C × V) × V))) :
    Exc (ResultStep Q C V × List (Q × (List (C × V) × V))) := do
  let results := u.call (current.map Prod.snd)
  let stepQueries ← buildStepQueries current (current.map Prod.fst) results
  let step : ResultStep Q C V := ⟨stepQueries, u.metadata⟩
  let nextCur ← mapME (fun p => do
    let s ← getItem stepQueries p.1
    pure (p.1, (s.casebase, s.query))) current
  pure (step, nextCur)

/-- The `for reuser in reusers` loop of `apply_batches`. -/
def applyLoop {Q C V : Type} [DecidableEq Q] :
    List (ReuserFunc C V) → List (Q × (List (C × V) × V)) →
    Exc (List (ResultStep Q C V))
  | [], _ => pure []
  | u :: us, current => do
    let (step, nextCur) ← applyReuser u current
    let rest ← applyLoop us nextCur
    pure (step :: rest)

/-- `apply_batches(batch, reusers)`: runs the reuser loop starting from the
input batch (no assertion on the number of reusers). -/
def apply_batches {Q C V : Type} [DecidableEq Q]
    (batch : List (Q × (List (C × V) × V))) (reusers : List (ReuserFunc C V)) :
    Exc (Result Q C V) := do
  let steps ← applyLoop reusers batch
  pure ⟨steps⟩

end Reuse

/-!
## Concrete instances used to evaluate the theorems on closed inputs
-/

/-- A two-case casebase. -/
def cbAB : List (String × ℚ) := [("a", 10), ("b", 20)]

/-- A single-query batch. -/
def qsQ : List (String × ℚ) := [("q", 7)]

/-- Retriever that scores only case `"a"`, whatever its input casebase. -/
def retConstA : Retrieval.RetrieverFunc String ℚ :=
  ⟨fun pairs => pairs.map fun _ => [("a", 1)], Json.null⟩

/-- Retriever that scores only case `"b"`, whatever its input casebase. -/
def retConstB : Retrieval.RetrieverFunc String ℚ :=
  ⟨fun pairs => pairs.map fun _ => [("b", 1)], Json.null⟩

/-- Retriever that keeps every key of its input casebase with score 1. -/
def retKeepAll : Retrieval.RetrieverFunc String ℚ :=
  ⟨fun pairs => pairs.map fun pr => pr.1.map fun kv => (kv.1, (1 : ℚ)), Json.null⟩

/-- Retriever that returns an empty result sequence for every batch. -/
def retEmptySeq : Retrieval.RetrieverFunc String ℚ :=
  ⟨fun _ => [], Json.null⟩

/-- Reuser that returns an empty result sequence for every batch. -/
def reuseShort : Reuse.ReuserFunc String ℚ :=
  ⟨fun _ => [], Json.null⟩

/-- Reuser that replaces every casebase by an adapted one derived from the
query value. -/
def reuseAdapt : Reuse.ReuserFunc String ℚ :=
  ⟨fun pairs => pairs.map fun pr => ([("x", pr.2 + 1)], [("x", (1 : ℚ))]), Json.null⟩

/-- Reuser that keeps the casebase and reports no scores. -/
def reuseNoop : Reuse.ReuserFunc String ℚ :=
  ⟨fun pairs => pairs.map fun pr => (pr.1, []), Json.null⟩

/-- A single-entry reuse batch. -/
def batchQ : List (String × (List (String × ℚ) × ℚ)) := [("q", (cbAB, 7))]

/-- A stand-in for the external cosine-distance routine. -/
def distEx : List ℚ → List ℚ → ℚ := fun _ _ => 1 / 4

/-- A filesystem with no files. -/
def fsNone : String → Option (List (String × String × ℚ)) := fun _ => none

/-!
## Basic lemmas about the embedding
-/

@[simp]
theorem ok_bind {α β : Type _} (a : α) (f : α → Exc β) :
    (Except.ok a >>= f) = f a := rfl

@[simp]
theorem error_bind {α β : Type _} (e : PyErr) (f : α → Exc β) :
    ((Except.error e : Exc α) >>= f) = .error e := rfl

theorem lookup_isSome_iff {K V : Type _} [DecidableEq K] :
    ∀ (l : List (K × V)) (k : K), (lookup l k).isSome ↔ k ∈ l.map Prod.fst := by
  intro l k
  induction l with
  | nil => simp [lookup]
  | cons p rest ih =>
    simp only [lookup, List.map_cons, List.mem_cons]
    by_cases h : p.1 = k
    · simp [h]
    · have h' : ¬ k = p.1 := fun hh => h hh.symm
      simp [h, h', ih]

theorem lookup_aligned_get {Q A B : Type _} [DecidableEq Q] :
    ∀ (tb : List (Q × A)) (pend : List (Q × B)),
      tb.map Prod.fst = pend.map Prod.fst → (pend.map Prod.fst).Nodup →
      ∀ i (h1 : i < pend.length) (h2 : i < tb.length),
        lookup tb (pend.get ⟨i, h1⟩).1 = some ((tb.get ⟨i, h2⟩).2) := by
  intro tb
  induction tb with
  | nil => intro pend h hnd i h1 h2; exact absurd h2 (by simp)
  | cons t ts ih =>
    intro pend h hnd i h1 h2
    cases pend with
    | nil => simp at h
    | cons p ps =>
      simp only [List.map_cons, List.cons.injEq] at h
      cases i with
      | zero => simp [lookup, h.1]
      | succ n =>
        simp only [List.map_cons, List.nodup_cons] at hnd
        have h1' : n < ps.length := by simpa using h1
        have h2' : n < ts.length := by simpa using h2
        have hmem : (ps.get ⟨n, h1'⟩).1 ∈ ps.map Prod.fst :=
          List.mem_map_of_mem Prod.fst (ps.get_mem _ _)
        have hne : t.1 ≠ (ps.get ⟨n, h1'⟩).1 := by
          rw [h.1]; intro hcontra
          exact hnd.1 (by rw [hcontra]; exact hmem)
        have hg1 : (p :: ps).get ⟨n + 1, h1⟩ = ps.get ⟨n, h1'⟩ := rfl
        have hg2 : (t :: ts).get ⟨n + 1, h2⟩ = ts.get ⟨n, h2'⟩ := rfl
        rw [hg1, hg2]
        simp only [lookup]
        rw [if_neg hne]
        exact ih ps h.2 hnd.2 n h1' h2' 

theorem nodup_lookup_get {Q A : Type _} [DecidableEq Q] (l : List (Q × A))
    (hnd : (l.map Prod.fst).Nodup) (i : ℕ) (h : i < l.length) :
    lookup l (l.get ⟨i, h⟩).1 = some ((l.get ⟨i, h⟩).2) :=
  lookup_aligned_get l l rfl hnd i h h

theorem nodup_lookup_mem {Q A : Type _} [DecidableEq Q] (l : List (Q × A))
    (hnd : (l.map Prod.fst).Nodup) (p : Q × A) (hp : p ∈ l) :
    lookup l p.1 = some p.2 := by
  obtain ⟨i, hi⟩ := List.get_of_mem hp
  have := nodup_lookup_get l hnd i.1 i.2
  rwa [hi] at this

/-!
## Claims about the string similarity library
-/

/-- C6: for every file path whose suffix is not `.csv`, the `table`
string-similarity constructor fails with a `NotImplementedError` before any
attempt to open or read the file's contents (the result does not depend on the
filesystem at all). -/
theorem claim6_theorem (fs : String → Option (List (String × String × ℚ)))
    (p : String) (symmetric : Bool) (defaultScore : ℚ)
    (h : Strings.pathSuffix p ≠ ".csv") :
    Strings.table fs (.path p) symmetric defaultScore
      = .error .notImplementedError := by
  simp [Strings.table, h]

theorem claim6_witness :
    Strings.pathSuffix "data/table.json" ≠ ".csv" ∧
    Strings.table fsNone (.path "data/table.json") true 0
      = .error .notImplementedError :=
  ⟨by decide, claim6_theorem fsNone "data/table.json" true 0 (by decide)⟩

/-- C7: the cosine similarity used by the embedding-based string measures is
exactly `0` whenever either input vector is entirely zero-valued, and equals
`1 - cosine_distance(u, v)` otherwise. -/
theorem claim7_theorem (cosineDist : List ℚ → List ℚ → ℚ) (u v : List ℚ) :
    ((∀ x ∈ u, x = 0) → Strings.pyCosine cosineDist u v = 0) ∧
    ((∀ x ∈ v, x = 0) → Strings.pyCosine cosineDist u v = 0) ∧
    ((∃ x ∈ u, x ≠ 0) → (∃ x ∈ v, x ≠ 0) →
      Strings.pyCosine cosineDist u v = 1 - cosineDist u v) := by
  refine ⟨?_, ?_, ?_⟩
  · intro h
    have hu : Strings.npAny u = false := by
      simp only [Strings.npAny, List.any_eq_false, decide_eq_true_eq, ne_eq, not_not]
      exact h
    simp [Strings.pyCosine, hu]
  · intro h
    have hv : Strings.npAny v = false := by
      simp only [Strings.npAny, List.any_eq_false, decide_eq_true_eq, ne_eq, not_not]
      exact h
    simp [Strings.pyCosine, hv]
  · intro hu hv
    have hu' : Strings.npAny u = true := by
      simp only [Strings.npAny, List.any_eq_true, decide_eq_true_eq]
      exact hu
    have hv' : Strings.npAny v = true := by
      simp only [Strings.npAny, List.any_eq_true, decide_eq_true_eq]
      exact hv
    simp [Strings.pyCosine, hu', hv']

theorem claim7_witness :
    (∀ x ∈ ([0, 0] : List ℚ), x = 0) ∧
    Strings.pyCosine distEx [0, 0] [1] = 0 ∧
    (∃ x ∈ ([2] : List ℚ), x ≠ 0) ∧ (∃ x ∈ ([3] : List ℚ), x ≠ 0) ∧
    Strings.pyCosine distEx [2] [3] = 1 - distEx [2] [3] :=
  ⟨by decide, (claim7_theorem distEx [0, 0] [1]).1 (by decide), by decide, by decide,
    (claim7_theorem distEx [2] [3]).2.2 (by decide) (by decide)⟩

/-!
## Lemmas about `chunkify` (claim C8)
-/

theorem chunkify_nil {V : Type} (k : ℕ) : Retrieval.chunkify ([] : List V) k = [] := by
  rw [Retrieval.chunkify]
  split <;> rfl

theorem chunkify_cons {V : Type} (v : V) (vs : List V) (k : ℕ) (hk : k ≠ 0) :
    Retrieval.chunkify (v :: vs) k
      = (v :: vs).take k :: Retrieval.chunkify ((v :: vs).drop k) k := by
  rw [Retrieval.chunkify]
  simp [hk]

theorem chunkify_eq_nil_iff {V : Type} (val : List V) (k : ℕ) (hk : k ≠ 0) :
    Retrieval.chunkify val k = [] ↔ val = [] := by
  cases val with
  | nil => simp [chunkify_nil]
  | cons v vs => simp [chunkify_cons v vs k hk]

theorem chunkify_join {V : Type} (k : ℕ) (hk : 1 ≤ k) :
    ∀ (val : List V), (Retrieval.chunkify val k).flatten = val := by
  have main : ∀ (n : ℕ) (val : List V), val.length ≤ n →
      (Retrieval.chunkify val k).flatten = val := by
    intro n
    induction n with
    | zero =>
      intro val hlen
      have hv : val = [] := List.eq_nil_of_length_eq_zero (Nat.le_zero.mp hlen)
      subst hv
      simp [chunkify_nil]
    | succ n ih =>
      intro val hlen
      cases val with
      | nil => simp [chunkify_nil]
      | cons v vs =>
        have hlc : (v :: vs).length = vs.length + 1 := by simp
        have hdl : ((v :: vs).drop k).length ≤ n := by
          rw [List.length_drop]
          omega
        rw [chunkify_cons v vs k (by omega), List.flatten_cons, ih _ hdl]
        exact List.take_append_drop k (v :: vs)
  intro val
  exact main val.length val le_rfl

theorem chunkify_dropLast_length {V : Type} (k : ℕ) (hk : 1 ≤ k) :
    ∀ (val : List V) (c : List V), c ∈ (Retrieval.chunkify val k).dropLast →
      c.length = k := by
  have main : ∀ (n : ℕ) (val : List V), val.length ≤ n →
      ∀ c ∈ (Retrieval.chunkify val k).dropLast, c.length = k := by
    intro n
    induction n with
    | zero =>
      intro val hlen c hc
      have hv : val = [] := List.eq_nil_of_length_eq_zero (Nat.le_zero.mp hlen)
      subst hv
      simp [chunkify_nil] at hc
    | succ n ih =>
      intro val hlen c hc
      cases val with
      | nil => simp [chunkify_nil] at hc
      | cons v vs =>
        have hlc : (v :: vs).length = vs.length + 1 := by simp
        rw [chunkify_cons v vs k (by omega)] at hc
        cases hrest : Retrieval.chunkify ((v :: vs).drop k) k with
        | nil => rw [hrest] at hc; simp at hc
        | cons c0 cs =>
          rw [hrest] at hc
          rw [List.dropLast_cons_of_ne_nil (by simp)] at hc
          rcases List.mem_cons.mp hc with h | h
          · subst h
            have hne : (v :: vs).drop k ≠ [] := by
              intro hnil
              rw [hnil, chunkify_nil] at hrest
              exact List.noConfusion hrest
            have hklen : k < (v :: vs).length := by
              by_contra hle
              exact hne (List.drop_eq_nil_of_le (by omega))
            rw [List.length_take]
            omega
          · have hdl : ((v :: vs).drop k).length ≤ n := by
              rw [List.length_drop]
              omega
            exact ih _ hdl c (by rw [hrest]; exact h)
  intro val
  exact main val.length val le_rfl

theorem chunkify_getLast_length {V : Type} (k : ℕ) (hk : 1 ≤ k) :
    ∀ (val : List V) (c : List V),
      (Retrieval.chunkify val k).getLast? = some c →
      c.length = if val.length % k = 0 then k else val.length % k := by
  have main : ∀ (n : ℕ) (val : List V), val.length ≤ n →
      ∀ c, (Retrieval.chunkify val k).getLast? = some c →
        c.length = if val.length % k = 0 then k else val.length % k := by
    intro n
    induction n with
    | zero =>
      intro val hlen c hc
      have hv : val = [] := List.eq_nil_of_length_eq_zero (Nat.le_zero.mp hlen)
      subst hv
      rw [chunkify_nil] at hc
      exact absurd hc (by simp)
    | succ n ih =>
      intro val hlen c hc
      cases val with
      | nil =>
        rw [chunkify_nil] at hc
        exact absurd hc (by simp)
      | cons v vs =>
        have hlc : (v :: vs).length = vs.length + 1 := by simp
        rw [chunkify_cons v vs k (by omega)] at hc
        cases hrest : Retrieval.chunkify ((v :: vs).drop k) k with
        | nil =>
          rw [hrest] at hc
          have hc' : List.take k (v :: vs) = c := by simpa using hc
          subst hc'
          have hnil : (v :: vs).drop k = [] :=
            (chunkify_eq_nil_iff ((v :: vs).drop k) k (by omega)).mp hrest
          have h0 : (v :: vs).length - k = 0 := by
            have := congrArg List.length hnil
            simpa [List.length_drop] using this
          by_cases heq : (v :: vs).length = k
          · rw [List.length_take, heq, Nat.mod_self]
            simp
          · have hlt : (v :: vs).length < k := by omega
            rw [List.length_take, Nat.mod_eq_of_lt hlt, if_neg (by omega)]
            omega
        | cons c0 cs =>
          rw [hrest] at hc
          rw [List.getLast?_cons_cons] at hc
          have hne : (v :: vs).drop k ≠ [] := by
            intro hnil
            rw [hnil, chunkify_nil] at hrest
            exact List.noConfusion hrest
          have hklen : k ≤ (v :: vs).length := by
            by_contra hle
            exact hne (List.drop_eq_nil_of_le (by omega))
          have hmod : ((v :: vs).drop k).length % k = (v :: vs).length % k := by
            rw [List.length_drop]
            conv_rhs => rw [show (v :: vs).length = ((v :: vs).length - k) + k by omega]
            rw [Nat.add_mod_right]
          have hdl : ((v :: vs).drop k).length ≤ n := by
            rw [List.length_drop]
            omega
          have hrec := ih _ hdl c (by rw [hrest]; exact hc)
          rwa [hmod] at hrec
  intro val
  exact main val.length val le_rfl

/-- C8: for every sequence and every chunk size `k ≥ 1`, concatenating the
chunks of `chunkify` reproduces the sequence exactly; every chunk except
possibly the last has length exactly `k`, and the last chunk has length
`n mod k` (or `k` when `k` divides `n` evenly). -/
theorem claim8_theorem {V : Type} (val : List V) (k : ℕ) (hk : 1 ≤ k) :
    (Retrieval.chunkify val k).flatten = val ∧
    (∀ c ∈ (Retrieval.chunkify val k).dropLast, c.length = k) ∧
    (∀ c, (Retrieval.chunkify val k).getLast? = some c →
      c.length = if val.length % k = 0 then k else val.length % k) :=
  ⟨chunkify_join k hk val, chunkify_dropLast_length k hk val,
    chunkify_getLast_length k hk val⟩

theorem claim8_witness :
    1 ≤ 4 ∧
    ((Retrieval.chunkify [1, 2, 3, 4, 5, 6, 7, 8, 9] 4).flatten
        = [1, 2, 3, 4, 5, 6, 7, 8, 9] ∧
      (∀ c ∈ (Retrieval.chunkify [1, 2, 3, 4, 5, 6, 7, 8, 9] 4).dropLast,
        c.length = 4) ∧
      (∀ c, (Retrieval.chunkify [1, 2, 3, 4, 5, 6, 7, 8, 9] 4).getLast? = some c →
        c.length = if ([1, 2, 3, 4, 5, 6, 7, 8, 9] : List ℕ).length % 4 = 0
          then 4 else ([1, 2, 3, 4, 5, 6, 7, 8, 9] : List ℕ).length % 4)) :=
  ⟨by decide, claim8_theorem [1, 2, 3, 4, 5, 6, 7, 8, 9] 4 (by decide)⟩

/-!
## Claim C2: dropout filter order
-/

/-- C2: `dropout` post-filters every similarity map produced by the wrapped
retriever with `_filter`, and `_filter` applies the fixed order
min-threshold, then max-threshold, then limit: the surviving keys are the
ranked keys passing both thresholds, truncated to `limit`; on
`{a: 0.1, b: 0.5, c: 0.9}` with `min_similarity = 0.3`,
`max_similarity = 0.8`, `limit = 1` the result is exactly `{b: 0.5}`. -/
theorem claim2_theorem {C V : Type} [DecidableEq C]
    (r : Retrieval.RetrieverFunc C V) (pairs : List (List (C × V) × V))
    (limit : ℕ) (mn mx : ℚ) (sims : List (C × ℚ)) :
    ((Retrieval.dropout r (some limit) (some mn) (some mx)).call pairs
      = (r.call pairs).map
          (Retrieval.dropoutFilter (some limit) (some mn) (some mx))) ∧
    (Retrieval.dropoutFilter (some limit) (some mn) (some mx) sims
      = (((similarities2ranking sims).filter fun k =>
            decide (mn ≤ unpack_sim (Retrieval.simOf sims k)) &&
            decide (unpack_sim (Retrieval.simOf sims k) ≤ mx)).take
          limit).filterMap fun key => (lookup sims key).map fun s => (key, s)) ∧
    (Retrieval.dropoutFilter (some 1) (some (3 / 10)) (some (8 / 10))
        ([("a", 1 / 10), ("b", 5 / 10), ("c", 9 / 10)] : List (String × ℚ))
      = [("b", 5 / 10)]) := by
  refine ⟨rfl, ?_, ?_⟩
  · show ((((similarities2ranking sims).filter fun key =>
        decide (mn ≤ unpack_sim (Retrieval.simOf sims key))).filter fun key =>
        decide (unpack_sim (Retrieval.simOf sims key) ≤ mx)).take
          limit).filterMap _ = _
    rw [List.filter_filter]
    have hcongr :
        ((similarities2ranking sims).filter fun k =>
          decide (unpack_sim (Retrieval.simOf sims k) ≤ mx) &&
          decide (mn ≤ unpack_sim (Retrieval.simOf sims k)))
        = (similarities2ranking sims).filter fun k =>
          decide (mn ≤ unpack_sim (Retrieval.simOf sims k)) &&
          decide (unpack_sim (Retrieval.simOf sims k) ≤ mx) :=
      List.filter_congr fun a _ => Bool.and_comm _ _
    rw [hcongr]
  · have h1 : ((5:ℚ)/10 < 9/10) = True := by norm_num
    have h2 : ((1:ℚ)/10 < 9/10) = True := by norm_num
    have h3 : ((1:ℚ)/10 < 5/10) = True := by norm_num
    have h4 : ((3:ℚ)/10 ≤ 9/10) = True := by norm_num
    have h5 : ((3:ℚ)/10 ≤ 5/10) = True := by norm_num
    have h6 : ((3:ℚ)/10 ≤ 1/10) = False := by norm_num
    have h7 : ((9:ℚ)/10 ≤ 8/10) = False := by norm_num
    have h8 : ((5:ℚ)/10 ≤ 8/10) = True := by norm_num
    simp [-one_div, Retrieval.dropoutFilter, similarities2ranking, sortDesc, insertDesc,
      unpack_sim, Retrieval.simOf, lookup, h1, h2, h3, h4, h5, h6, h7, h8]

/-!
## Claim C5: Result export drops the casebase
-/

/-- C5: exporting any `Result` with `as_dict` yields a structure whose
per-query objects carry exactly the `similarities` and `ranking` fields — no
`casebase` key at any `QueryResultStep` level — while every step's
`metadata` is preserved unchanged. -/
theorem claim5_theorem {Q C V : Type} (encQ : Q → String) (encC : C → String)
    (encV : V → Json) (r : Retrieval.Result Q C V) :
    Retrieval.Result.as_dict encQ encC encV r =
      Json.obj [("steps", Json.arr (r.steps.map fun step =>
        Json.obj
          [("queries", Json.obj (step.queries.map fun p =>
            (encQ p.1, Json.obj
              [("similarities",
                Json.obj (p.2.similarities.map fun e => (encC e.1, Json.num e.2))),
               ("ranking",
                Json.arr (p.2.ranking.map fun k => Json.str (encC k)))]))),
           ("metadata", step.metadata)]))] ∧
    ∀ step ∈ r.steps, ∀ p ∈ step.queries,
      Json.hasKey
        (Json.objDelete (Retrieval.QueryResultStep.asdict encC encV p.2) "casebase")
        "casebase" = false := by
  constructor
  · rfl
  · intro step hstep p hp
    simp [Retrieval.QueryResultStep.asdict, Json.objDelete, Json.hasKey]

/-!
## Machinery for the pipeline proofs
-/

@[simp]
theorem pure_eq_ok {α : Type _} (a : α) : (pure a : Exc α) = Except.ok a := rfl

theorem getItem_eq_ok {K V : Type _} [DecidableEq K] {m : List (K × V)} {k : K}
    {v : V} (h : lookup m k = some v) : getItem m k = Except.ok v := by
  simp [getItem, h]

theorem mapME_lookup_ok {Q A S D : Type _} [DecidableEq Q]
    (tb : List (Q × S)) (F : (Q × A) → S → D) :
    ∀ (pend : List (Q × A)) (vals : List S),
      pend.length = vals.length →
      (∀ i (h1 : i < pend.length) (h2 : i < vals.length),
        lookup tb (pend.get ⟨i, h1⟩).1 = some (vals.get ⟨i, h2⟩)) →
      mapME (fun p => do pure (F p (← getItem tb p.1))) pend
        = Except.ok (List.zipWith F pend vals) := by
  intro pend
  induction pend with
  | nil =>
    intro vals hlen hl
    cases vals with
    | nil => rfl
    | cons v vs => simp at hlen
  | cons p ps ih =>
    intro vals hlen hl
    cases vals with
    | nil => simp at hlen
    | cons v vs =>
      have h0 : lookup tb p.1 = some v := hl 0 (by simp) (by simp)
      have hrest := ih vs (by simpa using hlen) (fun i h1 h2 => by
        have := hl (i + 1) (by simpa using Nat.succ_lt_succ h1)
          (by simpa using Nat.succ_lt_succ h2)
        simpa using this)
      simp only [mapME, getItem_eq_ok h0, ok_bind, pure_bind]
      rw [hrest]
      simp only [ok_bind, pure_bind, pure_eq_ok, List.zipWith_cons_cons]

theorem mapME_keys_ok {C V : Type} [DecidableEq C] (full : List (C × V)) :
    ∀ (keys : List C), (∀ k ∈ keys, k ∈ full.map Prod.fst) →
      ∃ cb, mapME (fun key => do pure (key, ← getItem full key)) keys
          = Except.ok cb ∧
        cb.map Prod.fst = keys ∧ ∀ kv ∈ cb, lookup full kv.1 = some kv.2 := by
  intro keys
  induction keys with
  | nil => exact fun _ => ⟨[], rfl, rfl, by simp⟩
  | cons k ks ih =>
    intro h
    obtain ⟨v, hv⟩ : ∃ v, lookup full k = some v :=
      Option.isSome_iff_exists.mp ((lookup_isSome_iff full k).mpr (h k (by simp)))
    obtain ⟨cb, hcb, hmap, hvals⟩ := ih fun k' hk' => h k' (by simp [hk'])
    refine ⟨(k, v) :: cb, ?_, by simp [hmap], ?_⟩
    · simp only [mapME, getItem_eq_ok hv, ok_bind, pure_bind]
      rw [hcb]
      simp only [ok_bind, pure_bind, pure_eq_ok]
    · intro kv hkv
      rcases List.mem_cons.mp hkv with h1 | h1
      · subst h1; exact hv
      · exact hvals kv h1

theorem build_ok {C V : Type} [DecidableEq C] (full : List (C × V))
    (rc : List (C × ℚ)) (h : ∀ k ∈ rc.map Prod.fst, k ∈ full.map Prod.fst) :
    ∃ s, Retrieval.QueryResultStep.build rc full = Except.ok s ∧
      s.similarities = rc ∧ s.ranking = similarities2ranking rc ∧
      s.casebase.map Prod.fst = rc.map Prod.fst ∧
      ∀ kv ∈ s.casebase, lookup full kv.1 = some kv.2 := by
  obtain ⟨cb, hcb, hmap, hvals⟩ := mapME_keys_ok full (rc.map Prod.fst) h
  refine ⟨⟨rc, similarities2ranking rc, cb⟩, ?_, rfl, rfl, hmap, hvals⟩
  simp only [Retrieval.QueryResultStep.build]
  rw [hcb]
  simp only [ok_bind, pure_bind, pure_eq_ok]

theorem buildStepQueries_ok {Q C V : Type} [DecidableEq C] (full : List (C × V)) :
    ∀ (qs : List (Q × V)) (results : List (List (C × ℚ))),
      results.length = qs.length →
      (∀ rc ∈ results, ∀ k ∈ rc.map Prod.fst, k ∈ full.map Prod.fst) →
      ∃ sq, Retrieval.buildStepQueries full qs results = Except.ok sq ∧
        sq.map Prod.fst = qs.map Prod.fst ∧
        List.Forall₂ (fun rc (p : Q × Retrieval.QueryResultStep C V) =>
          p.2.similarities = rc ∧ p.2.ranking = similarities2ranking rc ∧
          p.2.casebase.map Prod.fst = rc.map Prod.fst ∧
          ∀ kv ∈ p.2.casebase, lookup full kv.1 = some kv.2) results sq := by
  intro qs
  induction qs with
  | nil =>
    intro results hlen h
    cases results with
    | nil => exact ⟨[], rfl, rfl, List.Forall₂.nil⟩
    | cons rc rcs => simp at hlen
  | cons q qs ih =>
    intro results hlen h
    cases results with
    | nil => simp at hlen
    | cons rc rcs =>
      obtain ⟨s, hs, hsim, hrank, hmap, hvals⟩ := build_ok full rc (h rc (by simp))
      obtain ⟨sq, hsq, hsqmap, hsqf⟩ := ih rcs (by simpa using hlen)
        fun rc' h' k hk => h rc' (by simp [h']) k hk
      refine ⟨(q.1, s) :: sq, ?_, by simp [hsqmap],
        List.Forall₂.cons ⟨hsim, hrank, hmap, hvals⟩ hsqf⟩
      simp only [Retrieval.buildStepQueries, hs, ok_bind]
      rw [hsq]
      simp only [ok_bind, pure_bind, pure_eq_ok]

theorem buildStepQueries_mismatch {Q C V : Type} [DecidableEq C]
    (full : List (C × V)) :
    ∀ (qs : List (Q × V)) (results : List (List (C × ℚ))),
      results.length ≠ qs.length →
      (∀ rc ∈ results, ∀ k ∈ rc.map Prod.fst, k ∈ full.map Prod.fst) →
      Retrieval.buildStepQueries full qs results = .error .valueError := by
  intro qs
  induction qs with
  | nil =>
    intro results hlen h
    cases results with
    | nil => simp at hlen
    | cons rc rcs => rfl
  | cons q qs ih =>
    intro results hlen h
    cases results with
    | nil => rfl
    | cons rc rcs =>
      obtain ⟨s, hs, _⟩ := build_ok full rc (h rc (by simp))
      have hrest := ih rcs (by simpa using hlen)
        fun rc' h' k hk => h rc' (by simp [h']) k hk
      simp only [Retrieval.buildStepQueries, hs, ok_bind]
      rw [hrest]
      simp only [error_bind]

/-- The `(casebase, query)` pairs handed to a retriever, given the current
per-query casebases. -/
def stepInputs {Q C V : Type} (queries : List (Q × V))
    (current : List (Q × List (C × V))) : List (List (C × V) × V) :=
  List.zipWith (fun (q : Q × V) cb => (cb, q.2)) queries (current.map Prod.snd)

theorem applyStep_ok {Q C V : Type} [DecidableEq Q] [DecidableEq C]
    (casebase : List (C × V)) (queries : List (Q × V))
    (r : Retrieval.RetrieverFunc C V) (current : List (Q × List (C × V)))
    (hnd : (queries.map Prod.fst).Nodup)
    (hal : current.map Prod.fst = queries.map Prod.fst)
    (hlen : (r.call (stepInputs queries current)).length = queries.length)
    (hkeys : ∀ m ∈ r.call (stepInputs queries current),
      ∀ k ∈ m.map Prod.fst, k ∈ casebase.map Prod.fst) :
    ∃ sq,
      Retrieval.applyStep casebase queries r current
        = Except.ok (⟨sq, r.metadata⟩,
            List.zipWith (fun (q : Q × V) (p : Q × Retrieval.QueryResultStep C V) =>
              (q.1, p.2.casebase)) queries sq) ∧
      sq.map Prod.fst = queries.map Prod.fst ∧
      List.Forall₂ (fun rc (p : Q × Retrieval.QueryResultStep C V) =>
        p.2.similarities = rc ∧ p.2.ranking = similarities2ranking rc ∧
        p.2.casebase.map Prod.fst = rc.map Prod.fst ∧
        ∀ kv ∈ p.2.casebase, lookup casebase kv.1 = some kv.2)
        (r.call (stepInputs queries current)) sq := by
  have hcl : current.length = queries.length := by
    have := congrArg List.length hal
    simpa using this
  have hinputs :
      mapME (fun q => do pure ((← getItem current q.1), q.2)) queries
        = Except.ok (stepInputs queries current) := by
    have := mapME_lookup_ok current
      (fun (q : Q × V) cb => ((cb, q.2) : List (C × V) × V)) queries
      (current.map Prod.snd) (by simpa using hcl.symm)
      (fun i h1 h2 => by
        have hg := lookup_aligned_get current queries hal hnd i h1 (by omega)
        have hm : (current.map Prod.snd).get ⟨i, h2⟩
            = (current.get ⟨i, by omega⟩).2 := by
          simp [List.get_eq_getElem, List.getElem_map]
        rw [hm]
        exact hg)
    exact this
  obtain ⟨sq, hsq, hsqmap, hsqf⟩ :=
    buildStepQueries_ok casebase queries (r.call (stepInputs queries current))
      hlen hkeys
  have hsql : sq.length = queries.length := by
    have := congrArg List.length hsqmap
    simpa using this
  have hnext :
      mapME (fun q => do pure (q.1, (← getItem sq q.1).casebase)) queries
        = Except.ok (List.zipWith
            (fun (q : Q × V) (p : Q × Retrieval.QueryResultStep C V) =>
              (q.1, p.2.casebase)) queries sq) := by
    have := mapME_lookup_ok sq
      (fun (q : Q × V) (s : Retrieval.QueryResultStep C V) => (q.1, s.casebase))
      queries (sq.map Prod.snd) (by simpa using hsql.symm)
      (fun i h1 h2 => by
        have hg := lookup_aligned_get sq queries hsqmap hnd i h1 (by omega)
        have hm : (sq.map Prod.snd).get ⟨i, h2⟩ = (sq.get ⟨i, by omega⟩).2 := by
          simp [List.get_eq_getElem, List.getElem_map]
        rw [hm]
        exact hg)
    rw [this]
    rw [List.zipWith_map_right]
  refine ⟨sq, ?_, hsqmap, hsqf⟩
  simp only [Retrieval.applyStep, hinputs, ok_bind]
  rw [hsq]
  simp only [ok_bind]
  rw [hnext]
  simp only [ok_bind, pure_eq_ok]

theorem forall₂_mem_right {α β : Type _} {R : α → β → Prop} {as : List α}
    {bs : List β} (h : List.Forall₂ R as bs) {b : β} (hb : b ∈ bs) :
    ∃ a ∈ as, R a b := by
  obtain ⟨i, hi⟩ := List.mem_iff_get.mp hb
  have hlen := h.length_eq
  obtain ⟨-, hget⟩ := List.forall₂_iff_get.mp h
  exact ⟨as.get ⟨i.1, by omega⟩, List.get_mem _ _ _,
    by rw [← hi]; exact hget i.1 (by omega) i.2⟩

theorem zipWith_fst_keys {Q V B D : Type _} (g : (Q × V) → B → D) :
    ∀ (l : List (Q × V)) (bs : List B), bs.length = l.length →
      (List.zipWith (fun q b => ((q : Q × V).1, g q b)) l bs).map Prod.fst
        = l.map Prod.fst := by
  intro l
  induction l with
  | nil => intro bs h; simp
  | cons a l ih =>
    intro bs h
    cases bs with
    | nil => simp at h
    | cons b bs => simp [ih bs (by simpa using h)]

theorem stepInputs_length {Q C V : Type} (queries : List (Q × V))
    (current : List (Q × List (C × V))) (hcl : current.length = queries.length) :
    (stepInputs queries current).length = queries.length := by
  simp [stepInputs, List.length_zipWith, hcl]

theorem applyLoop_values {Q C V : Type} [DecidableEq Q] [DecidableEq C]
    (casebase : List (C × V)) (queries : List (Q × V))
    (hnd : (queries.map Prod.fst).Nodup) :
    ∀ (retrievers : List (Retrieval.RetrieverFunc C V))
      (current : List (Q × List (C × V))),
      current.map Prod.fst = queries.map Prod.fst →
      (∀ r ∈ retrievers, ∀ inputs, (r.call inputs).length = inputs.length ∧
        ∀ m ∈ r.call inputs, ∀ k ∈ m.map Prod.fst, k ∈ casebase.map Prod.fst) →
      ∃ steps,
        Retrieval.applyLoop casebase queries retrievers current
          = Except.ok steps ∧
        steps.length = retrievers.length ∧
        ∀ step ∈ steps, step.queries.map Prod.fst = queries.map Prod.fst ∧
          ∀ p ∈ step.queries,
            p.2.casebase.map Prod.fst = p.2.similarities.map Prod.fst ∧
            ∀ kv ∈ p.2.casebase, lookup casebase kv.1 = some kv.2 := by
  intro retrievers
  induction retrievers with
  | nil =>
    intro current hal hr
    exact ⟨[], rfl, rfl, by simp⟩
  | cons r rs ih =>
    intro current hal hr
    have hcl : current.length = queries.length := by
      have := congrArg List.length hal
      simpa using this
    have hinlen : (stepInputs queries current).length = queries.length :=
      stepInputs_length queries current hcl
    have hr0 := hr r (by simp)
    have hlen : (r.call (stepInputs queries current)).length = queries.length :=
      (hr0 (stepInputs queries current)).1.trans hinlen
    have hkeys := (hr0 (stepInputs queries current)).2
    obtain ⟨sq, hstep, hsqmap, hsqf⟩ :=
      applyStep_ok casebase queries r current hnd hal hlen hkeys
    have hsql : sq.length = queries.length := by
      have := congrArg List.length hsqmap
      simpa using this
    have halnext :
        (List.zipWith (fun (q : Q × V) (p : Q × Retrieval.QueryResultStep C V) =>
          (q.1, p.2.casebase)) queries sq).map Prod.fst
          = queries.map Prod.fst :=
      zipWith_fst_keys _ queries sq hsql
    obtain ⟨steps, hloop, hslen, hprops⟩ := ih _ halnext fun r' hr' => hr r' (by simp [hr'])
    refine ⟨⟨sq, r.metadata⟩ :: steps, ?_, by simp [hslen], ?_⟩
    · simp only [Retrieval.applyLoop, hstep, ok_bind]
      rw [hloop]
      simp only [ok_bind, pure_eq_ok]
    · intro step hstep'
      rcases List.mem_cons.mp hstep' with h1 | h1
      · subst h1
        refine ⟨hsqmap, ?_⟩
        intro p hp
        obtain ⟨rc, _, hrel⟩ := forall₂_mem_right hsqf hp
        exact ⟨by rw [hrel.2.2.1, hrel.1], hrel.2.2.2⟩
      · exact hprops step h1

theorem lookup_map_const {Q V A : Type _} [DecidableEq Q] (l : List (Q × V))
    (c : A) (k : Q) (h : k ∈ l.map Prod.fst) :
    lookup (l.map fun q => (q.1, c)) k = some c := by
  induction l with
  | nil => simp at h
  | cons p ps ih =>
    by_cases hp : p.1 = k
    · simp [lookup, hp]
    · have hk : k ∈ ps.map Prod.fst := by
        rw [List.map_cons] at h
        rcases List.mem_cons.mp h with h1 | h1
        · exact absurd h1.symm hp
        · exact h1
      simp only [List.map_cons, lookup, hp, if_false]
      exact ih hk

theorem reuse_buildStepQueries_mismatch {Q C V : Type} [DecidableEq Q]
    (current : List (Q × (List (C × V) × V))) :
    ∀ (keys : List Q) (results : List (List (C × V) × List (C × ℚ))),
      results.length ≠ keys.length →
      (∀ qk ∈ keys, qk ∈ current.map Prod.fst) →
      Reuse.buildStepQueries current keys results = .error .valueError := by
  intro keys
  induction keys with
  | nil =>
    intro results hlen h
    cases results with
    | nil => simp at hlen
    | cons rc rcs => rfl
  | cons qk qks ih =>
    intro results hlen h
    cases results with
    | nil => rfl
    | cons res rest =>
      obtain ⟨c, hc⟩ : ∃ c, lookup current qk = some c :=
        Option.isSome_iff_exists.mp
          ((lookup_isSome_iff current qk).mpr (h qk (by simp)))
      have hrest := ih rest (by simpa using hlen) fun qk' h' => h qk' (by simp [h'])
      simp only [Reuse.buildStepQueries, getItem_eq_ok hc, ok_bind]
      rw [hrest]
      simp only [error_bind]

/-!
## Claims C9, C10, C3
-/

/-- C9: `QueryResultStep.build` is invoked with the full original casebase at
every step, so as long as every retriever returns one similarity map per pair
whose keys exist in the *original* casebase — even keys absent from the
narrowed casebase the retriever was given — `apply_queries` raises no lookup
failure, and every step's per-query casebase maps exactly the scored keys to
those keys' values in the original input casebase. -/
theorem claim9_theorem {Q C V : Type} [DecidableEq Q] [DecidableEq C]
    (casebase : List (C × V)) (queries : List (Q × V))
    (retrievers : List (Retrieval.RetrieverFunc C V))
    (hnd : (queries.map Prod.fst).Nodup) (hret : retrievers ≠ [])
    (hr : ∀ r ∈ retrievers, ∀ inputs, (r.call inputs).length = inputs.length ∧
      ∀ m ∈ r.call inputs, ∀ k ∈ m.map Prod.fst, k ∈ casebase.map Prod.fst) :
    ∃ res, Retrieval.apply_queries casebase queries retrievers = Except.ok res ∧
      res.steps.length = retrievers.length ∧
      ∀ step ∈ res.steps, step.queries.map Prod.fst = queries.map Prod.fst ∧
        ∀ p ∈ step.queries,
          p.2.casebase.map Prod.fst = p.2.similarities.map Prod.fst ∧
          ∀ kv ∈ p.2.casebase, lookup casebase kv.1 = some kv.2 := by
  have hal : (queries.map fun q => (q.1, casebase)).map Prod.fst
      = queries.map Prod.fst := by
    simp
  obtain ⟨steps, hloop, hslen, hprops⟩ :=
    applyLoop_values casebase queries hnd retrievers _ hal hr
  refine ⟨⟨steps⟩, ?_, hslen, hprops⟩
  have hpos : retrievers.length > 0 := List.length_pos.mpr hret
  simp only [Retrieval.apply_queries]
  rw [if_pos hpos, hloop]
  simp only [ok_bind, pure_eq_ok]

theorem claim9_witness :
    ∃ res,
      Retrieval.apply_queries cbAB qsQ [retConstA, retConstB] = Except.ok res ∧
      res.steps.length = 2 ∧
      ∀ step ∈ res.steps, step.queries.map Prod.fst = qsQ.map Prod.fst ∧
        ∀ p ∈ step.queries,
          p.2.casebase.map Prod.fst = p.2.similarities.map Prod.fst ∧
          ∀ kv ∈ p.2.casebase, lookup cbAB kv.1 = some kv.2 :=
  claim9_theorem cbAB qsQ [retConstA, retConstB] (by decide)
    (List.cons_ne_nil _ _)
    (by
      intro r hrmem inputs
      rcases List.mem_cons.mp hrmem with h | h
      · subst h
        refine ⟨by simp [retConstA], ?_⟩
        intro m hm k hk
        simp only [retConstA, List.mem_map] at hm
        obtain ⟨x, -, hx⟩ := hm
        subst hx
        simp only [List.map_cons, List.map_nil] at hk
        simp [cbAB, show k = "a" by simpa using hk]
      · have h' : r = retConstB := by simpa using h
        subst h'
        refine ⟨by simp [retConstB], ?_⟩
        intro m hm k hk
        simp only [retConstB, List.mem_map] at hm
        obtain ⟨x, -, hx⟩ := hm
        subst hx
        simp only [List.map_cons, List.map_nil] at hk
        simp [cbAB, show k = "b" by simpa using hk])

/-- C10: the reuse pipeline accepts an empty sequence of reusers and returns
a `Result` with no steps, while the retrieval pipeline rejects an empty
sequence of retrievers with an assertion failure. -/
theorem claim10_theorem {Q C V : Type} [DecidableEq Q] [DecidableEq C]
    (batch : List (Q × (List (C × V) × V))) (casebase : List (C × V))
    (queries : List (Q × V)) :
    Reuse.apply_batches batch ([] : List (Reuse.ReuserFunc C V))
      = Except.ok ⟨[]⟩ ∧
    Retrieval.apply_queries casebase queries
      ([] : List (Retrieval.RetrieverFunc C V)) = .error .assertionError :=
  ⟨rfl, rfl⟩

/-- C3: a retriever (in retrieval `apply_queries`) or a reuser (in reuse
`apply_batches`) returning a result sequence whose length differs from the
number of input pairs makes the pipeline call fail with the strict-zip
`ValueError` (shape mismatch), for any batch size ≥ 1. -/
theorem claim3_theorem {Q C V : Type} [DecidableEq Q] [DecidableEq C]
    (casebase : List (C × V)) (queries : List (Q × V))
    (r : Retrieval.RetrieverFunc C V)
    (batch : List (Q × (List (C × V) × V))) (u : Reuse.ReuserFunc C V)
    (_hq : 1 ≤ queries.length)
    (hrlen : (r.call (stepInputs queries
        (queries.map fun q => (q.1, casebase)))).length ≠ queries.length)
    (hrkeys : ∀ m ∈ r.call (stepInputs queries
        (queries.map fun q => (q.1, casebase))),
      ∀ k ∈ m.map Prod.fst, k ∈ casebase.map Prod.fst)
    (_hb : 1 ≤ batch.length)
    (hulen : (u.call (batch.map Prod.snd)).length ≠ batch.length) :
    Retrieval.apply_queries casebase queries [r] = .error .valueError ∧
    Reuse.apply_batches batch [u] = .error .valueError := by
  constructor
  · have hinputs :
        mapME (fun q => do
          pure ((← getItem (queries.map fun q => (q.1, casebase)) q.1), q.2))
          queries
          = Except.ok (stepInputs queries (queries.map fun q => (q.1, casebase))) := by
      have := mapME_lookup_ok (queries.map fun q => (q.1, casebase))
        (fun (q : Q × V) cb => ((cb, q.2) : List (C × V) × V)) queries
        ((queries.map fun q => (q.1, casebase)).map Prod.snd)
        (by simp)
        (fun i h1 h2 => by
          have hm : ((queries.map fun q => (q.1, casebase)).map Prod.snd).get ⟨i, h2⟩
              = casebase := by
            simp [List.get_eq_getElem, List.getElem_map]
          rw [hm]
          exact lookup_map_const queries casebase (queries.get ⟨i, h1⟩).1
            (List.mem_map_of_mem Prod.fst (List.get_mem _ _ _)))
      exact this
    have hpos : ([r] : List (Retrieval.RetrieverFunc C V)).length > 0 := by simp
    simp only [Retrieval.apply_queries]
    rw [if_pos hpos]
    simp only [Retrieval.applyLoop, Retrieval.applyStep, hinputs, ok_bind]
    rw [buildStepQueries_mismatch casebase queries _ hrlen hrkeys]
    simp only [error_bind]
  · simp only [Reuse.apply_batches, Reuse.applyLoop, Reuse.applyReuser]
    rw [reuse_buildStepQueries_mismatch batch (batch.map Prod.fst)
      (u.call (batch.map Prod.snd)) (by simpa using hulen) (fun qk h => h)]
    simp only [error_bind]

theorem claim3_witness :
    1 ≤ qsQ.length ∧ 1 ≤ batchQ.length ∧
    Retrieval.apply_queries cbAB qsQ [retEmptySeq] = .error .valueError ∧
    Reuse.apply_batches batchQ [reuseShort] = .error .valueError := by
  have h := claim3_theorem cbAB qsQ retEmptySeq batchQ reuseShort
    (by decide) (by decide) (by decide) (by decide) (by decide)
  exact ⟨by decide, by decide, h.1, h.2⟩

/-!
## Claim C4: reuse threads the query forward
-/

theorem map_snd_zipWith {A B D E : Type _} (f : A → D) (g : A → B → E) :
    ∀ (l : List A) (bs : List B),
      (List.zipWith (fun a b => (f a, g a b)) l bs).map Prod.snd
        = List.zipWith g l bs := by
  intro l
  induction l with
  | nil => intro bs; simp
  | cons a l ih =>
    intro bs
    cases bs with
    | nil => simp
    | cons b bs => simp [ih bs]

theorem zipWith_zipWith_same {A B D E : Type _} (F : A → D → E) (g : A → B → D) :
    ∀ (l : List A) (bs : List B),
      List.zipWith F l (List.zipWith g l bs)
        = List.zipWith (fun a b => F a (g a b)) l bs := by
  intro l
  induction l with
  | nil => intro bs; simp
  | cons a l ih =>
    intro bs
    cases bs with
    | nil => simp
    | cons b bs => simp [ih bs]

theorem reuse_buildStepQueries_ok {Q C V : Type} [DecidableEq Q]
    (current : List (Q × (List (C × V) × V))) :
    ∀ (pend : List (Q × (List (C × V) × V)))
      (results : List (List (C × V) × List (C × ℚ))),
      results.length = pend.length →
      (∀ i (h1 : i < pend.length),
        lookup current (pend.get ⟨i, h1⟩).1 = some ((pend.get ⟨i, h1⟩).2)) →
      Reuse.buildStepQueries current (pend.map Prod.fst) results
        = Except.ok (List.zipWith
            (fun (p : Q × (List (C × V) × V)) res =>
              (p.1, Reuse.QueryResultStep.build res.2 res.1 p.2.2)) pend results) := by
  intro pend
  induction pend with
  | nil =>
    intro results hlen hl
    cases results with
    | nil => rfl
    | cons a b => simp at hlen
  | cons p ps ih =>
    intro results hlen hl
    cases results with
    | nil => simp at hlen
    | cons res rest =>
      have h0 : lookup current p.1 = some p.2 := hl 0 (by simp)
      have hrest := ih rest (by simpa using hlen) (fun i h1 => by
        have := hl (i + 1) (by simpa using Nat.succ_lt_succ h1)
        simpa using this)
      simp only [List.map_cons, Reuse.buildStepQueries, getItem_eq_ok h0, ok_bind]
      rw [hrest]
      simp only [ok_bind, pure_eq_ok, List.zipWith_cons_cons]

theorem applyReuser_ok {Q C V : Type} [DecidableEq Q] (u : Reuse.ReuserFunc C V)
    (current : List (Q × (List (C × V) × V)))
    (hnd : (current.map Prod.fst).Nodup)
    (hlen : (u.call (current.map Prod.snd)).length = current.length) :
    Reuse.applyReuser u current = Except.ok
      (⟨List.zipWith (fun (p : Q × (List (C × V) × V)) res =>
          (p.1, Reuse.QueryResultStep.build res.2 res.1 p.2.2)) current
          (u.call (current.map Prod.snd)), u.metadata⟩,
        List.zipWith (fun (p : Q × (List (C × V) × V)) res =>
          (p.1, (res.1, p.2.2))) current (u.call (current.map Prod.snd))) := by
  have hbuild := reuse_buildStepQueries_ok current current
    (u.call (current.map Prod.snd)) hlen
    (fun i h1 => nodup_lookup_get current hnd i h1)
  have hsqmap :
      (List.zipWith (fun (p : Q × (List (C × V) × V)) res =>
        (p.1, Reuse.QueryResultStep.build res.2 res.1 p.2.2)) current
        (u.call (current.map Prod.snd))).map Prod.fst
        = current.map Prod.fst :=
    zipWith_fst_keys _ current _ hlen
  have hsql :
      (List.zipWith (fun (p : Q × (List (C × V) × V)) res =>
        (p.1, Reuse.QueryResultStep.build res.2 res.1 p.2.2)) current
        (u.call (current.map Prod.snd))).length = current.length := by
    have := congrArg List.length hsqmap
    simpa using this
  have hnext := mapME_lookup_ok
    (List.zipWith (fun (p : Q × (List (C × V) × V)) res =>
      (p.1, Reuse.QueryResultStep.build res.2 res.1 p.2.2)) current
      (u.call (current.map Prod.snd)))
    (fun (p : Q × (List (C × V) × V)) (s : Reuse.QueryResultStep C V) =>
      (p.1, (s.casebase, s.query)))
    current
    ((List.zipWith (fun (p : Q × (List (C × V) × V)) res =>
      (p.1, Reuse.QueryResultStep.build res.2 res.1 p.2.2)) current
      (u.call (current.map Prod.snd))).map Prod.snd)
    (by simpa using hsql.symm)
    (fun i h1 h2 => by
      have hg := lookup_aligned_get _ current hsqmap hnd i h1 (by omega)
      have hm : ((List.zipWith (fun (p : Q × (List (C × V) × V)) res =>
          (p.1, Reuse.QueryResultStep.build res.2 res.1 p.2.2)) current
          (u.call (current.map Prod.snd))).map Prod.snd).get ⟨i, h2⟩
          = ((List.zipWith (fun (p : Q × (List (C × V) × V)) res =>
            (p.1, Reuse.QueryResultStep.build res.2 res.1 p.2.2)) current
            (u.call (current.map Prod.snd))).get ⟨i, by omega⟩).2 := by
        simp [List.get_eq_getElem, List.getElem_map]
      rw [hm]
      exact hg)
  have hfuse :
      List.zipWith (fun (p : Q × (List (C × V) × V))
          (s : Reuse.QueryResultStep C V) => (p.1, (s.casebase, s.query))) current
        ((List.zipWith (fun (p : Q × (List (C × V) × V)) res =>
          (p.1, Reuse.QueryResultStep.build res.2 res.1 p.2.2)) current
          (u.call (current.map Prod.snd))).map Prod.snd)
        = List.zipWith (fun (p : Q × (List (C × V) × V)) res =>
            (p.1, (res.1, p.2.2))) current (u.call (current.map Prod.snd)) := by
    rw [map_snd_zipWith (fun (p : Q × (List (C × V) × V)) => p.1)
      (fun (p : Q × (List (C × V) × V)) res =>
        Reuse.QueryResultStep.build res.2 res.1 p.2.2) current
      (u.call (current.map Prod.snd))]
    rw [zipWith_zipWith_same]
    rfl
  rw [hfuse] at hnext
  simp only [Reuse.applyReuser, hbuild, ok_bind]
  rw [hnext]
  simp only [ok_bind, pure_eq_ok]

/-- C4: with two reusers, `apply_batches` hands the second reuser, per query
key, the first reuser's adapted casebase paired with the original query value
from the input batch: running `[u1, u2]` equals running `[u1]` and then
running `[u2]` on the batch that pairs `u1`'s adapted casebases with the
original queries, concatenating the steps. -/
theorem claim4_theorem {Q C V : Type} [DecidableEq Q]
    (batch : List (Q × (List (C × V) × V))) (u1 u2 : Reuse.ReuserFunc C V)
    (hnd : (batch.map Prod.fst).Nodup)
    (hlen : (u1.call (batch.map Prod.snd)).length = batch.length) :
    Reuse.apply_batches batch [u1, u2]
      = (do
          let r1 ← Reuse.apply_batches batch [u1]
          let r2 ← Reuse.apply_batches
            (List.zipWith (fun (b : Q × (List (C × V) × V)) res =>
              (b.1, (res.1, b.2.2))) batch (u1.call (batch.map Prod.snd))) [u2]
          pure (⟨r1.steps ++ r2.steps⟩ : Reuse.Result Q C V)) := by
  have h1 := applyReuser_ok u1 batch hnd hlen
  simp only [Reuse.apply_batches, Reuse.applyLoop, h1, ok_bind]
  cases h2 : Reuse.applyLoop [u2]
      (List.zipWith (fun (b : Q × (List (C × V) × V)) res =>
        (b.1, (res.1, b.2.2))) batch (u1.call (batch.map Prod.snd))) with
  | error e => simp [Reuse.applyLoop, h2]
  | ok steps2 => simp [Reuse.applyLoop, h2]

theorem claim4_witness :
    (Reuse.apply_batches batchQ [reuseAdapt, reuseNoop]
      = (do
          let r1 ← Reuse.apply_batches batchQ [reuseAdapt]
          let r2 ← Reuse.apply_batches
            (List.zipWith (fun (b : String × (List (String × ℚ) × ℚ)) res =>
              (b.1, (res.1, b.2.2))) batchQ
              (reuseAdapt.call (batchQ.map Prod.snd))) [reuseNoop]
          pure (⟨r1.steps ++ r2.steps⟩ : Reuse.Result String String ℚ))) ∧
    List.zipWith (fun (b : String × (List (String × ℚ) × ℚ)) res =>
        (b.1, (res.1, b.2.2))) batchQ (reuseAdapt.call (batchQ.map Prod.snd))
      = [("q", ([("x", 8)], 7))] :=
  ⟨claim4_theorem batchQ reuseAdapt reuseNoop (by decide) (by decide),
    by norm_num [batchQ, reuseAdapt, cbAB]⟩

/-!
## Claim C1: retrieval narrows monotonically
-/

theorem mem_zipWith {A B D : Type _} (f : A → B → D) :
    ∀ (l : List A) (bs : List B), ∀ d ∈ List.zipWith f l bs,
      ∃ a ∈ l, ∃ b ∈ bs, d = f a b := by
  intro l
  induction l with
  | nil => intro bs d hd; simp at hd
  | cons a l ih =>
    intro bs d hd
    cases bs with
    | nil => simp at hd
    | cons b bs =>
      rw [List.zipWith_cons_cons] at hd
      rcases List.mem_cons.mp hd with h | h
      · exact ⟨a, by simp, b, by simp, h⟩
      · obtain ⟨a', ha', b', hb', hd'⟩ := ih bs d h
        exact ⟨a', by simp [ha'], b', by simp [hb'], hd'⟩

theorem applyLoop_chain {Q C V : Type} [DecidableEq Q] [DecidableEq C]
    (casebase : List (C × V)) (queries : List (Q × V))
    (hnd : (queries.map Prod.fst).Nodup) :
    ∀ (retrievers : List (Retrieval.RetrieverFunc C V))
      (current : List (Q × List (C × V))),
      current.map Prod.fst = queries.map Prod.fst →
      (∀ cb ∈ current.map Prod.snd, cb.map Prod.fst ⊆ casebase.map Prod.fst) →
      (∀ r ∈ retrievers, ∀ inputs, (r.call inputs).length = inputs.length ∧
        List.Forall₂ (fun (inp : List (C × V) × V) out =>
          out.map Prod.fst ⊆ inp.1.map Prod.fst) inputs (r.call inputs)) →
      ∃ steps,
        Retrieval.applyLoop casebase queries retrievers current
          = Except.ok steps ∧
        steps.length = retrievers.length ∧
        ∀ qk ∈ queries.map Prod.fst,
          List.Chain' (fun a b => b ⊆ a)
            ((((lookup current qk).map fun cb => cb.map Prod.fst).getD []) ::
              steps.map fun s => Retrieval.keysAt s qk) := by
  intro retrievers
  induction retrievers with
  | nil =>
    intro current hal hsub hr
    exact ⟨[], rfl, rfl, fun qk _ => by simp⟩
  | cons r rs ih =>
    intro current hal hsub hr
    have hcl : current.length = queries.length := by
      have := congrArg List.length hal
      simpa using this
    have hinlen : (stepInputs queries current).length = queries.length :=
      stepInputs_length queries current hcl
    have hr0 := hr r (by simp)
    have hlen : (r.call (stepInputs queries current)).length = queries.length :=
      (hr0 (stepInputs queries current)).1.trans hinlen
    have hsubf := (hr0 (stepInputs queries current)).2
    have hkeys : ∀ m ∈ r.call (stepInputs queries current),
        ∀ k ∈ m.map Prod.fst, k ∈ casebase.map Prod.fst := by
      intro m hm k hk
      obtain ⟨inp, hinp, hrel⟩ := forall₂_mem_right hsubf hm
      obtain ⟨q, hq, cb, hcb, heq⟩ :=
        mem_zipWith _ queries (current.map Prod.snd) inp hinp
      have hk' : k ∈ inp.1.map Prod.fst := hrel hk
      rw [heq] at hk'
      exact hsub cb hcb hk'
    obtain ⟨sq, hstep, hsqmap, hsqf⟩ :=
      applyStep_ok casebase queries r current hnd hal hlen hkeys
    have hsql : sq.length = queries.length := by
      have := congrArg List.length hsqmap
      simpa using this
    have halnext :
        (List.zipWith (fun (q : Q × V) (p : Q × Retrieval.QueryResultStep C V) =>
          (q.1, p.2.casebase)) queries sq).map Prod.fst = queries.map Prod.fst :=
      zipWith_fst_keys _ queries sq hsql
    have hsubnext :
        ∀ cb ∈ (List.zipWith
            (fun (q : Q × V) (p : Q × Retrieval.QueryResultStep C V) =>
              (q.1, p.2.casebase)) queries sq).map Prod.snd,
          cb.map Prod.fst ⊆ casebase.map Prod.fst := by
      intro cb hcb
      rw [map_snd_zipWith (fun (q : Q × V) => q.1)
        (fun (q : Q × V) (p : Q × Retrieval.QueryResultStep C V) =>
          p.2.casebase) queries sq] at hcb
      obtain ⟨q, hq, p, hp, heq⟩ := mem_zipWith _ queries sq cb hcb
      obtain ⟨rc, hrc, hrel⟩ := forall₂_mem_right hsqf hp
      subst heq
      rw [hrel.2.2.1]
      intro k hk
      exact hkeys rc hrc k hk
    obtain ⟨steps, hloop, hslen, hchain⟩ :=
      ih _ halnext hsubnext fun r' h' => hr r' (by simp [h'])
    refine ⟨⟨sq, r.metadata⟩ :: steps, ?_, by simp [hslen], ?_⟩
    · simp only [Retrieval.applyLoop, hstep, ok_bind]
      rw [hloop]
      simp only [ok_bind, pure_eq_ok]
    · intro qk hqk
      obtain ⟨q0, hq0mem, hq0⟩ := List.mem_map.mp hqk
      obtain ⟨i, hi⟩ := List.mem_iff_get.mp hq0mem
      have hil : i.1 < queries.length := i.2
      have hcur : lookup current qk = some ((current.get ⟨i.1, by omega⟩).2) := by
        have h := lookup_aligned_get current queries hal hnd i.1 i.2 (by omega)
        rw [hi, hq0] at h
        exact h
      have hsq' : lookup sq qk = some ((sq.get ⟨i.1, by omega⟩).2) := by
        have h := lookup_aligned_get sq queries hsqmap hnd i.1 i.2 (by omega)
        rw [hi, hq0] at h
        exact h
      have hkstep : Retrieval.keysAt (⟨sq, r.metadata⟩ : Retrieval.ResultStep Q C V) qk
          = ((sq.get ⟨i.1, by omega⟩).2).casebase.map Prod.fst := by
        simp [Retrieval.keysAt, hsq']
      have hsubhead :
          ((sq.get ⟨i.1, by omega⟩).2).casebase.map Prod.fst
            ⊆ ((current.get ⟨i.1, by omega⟩).2).map Prod.fst := by
        obtain ⟨hl1, hget1⟩ := List.forall₂_iff_get.mp hsqf
        have h1 := hget1 i.1 (by omega) (by omega)
        obtain ⟨hl2, hget2⟩ := List.forall₂_iff_get.mp hsubf
        have h2 := hget2 i.1 (by omega) (by omega)
        have hin : ((stepInputs queries current).get ⟨i.1, by omega⟩).1
            = (current.get ⟨i.1, by omega⟩).2 := by
          simp [stepInputs, List.get_eq_getElem, List.getElem_zipWith,
            List.getElem_map]
        rw [h1.2.2.1]
        rw [hin] at h2
        exact h2
      have hch := hchain qk hqk
      have hnextlookup :
          lookup (List.zipWith
            (fun (q : Q × V) (p : Q × Retrieval.QueryResultStep C V) =>
              (q.1, p.2.casebase)) queries sq) qk
            = some (((sq.get ⟨i.1, by omega⟩).2).casebase) := by
        have h := lookup_aligned_get _ queries halnext hnd i.1 i.2
          (by rw [List.length_zipWith]; omega)
        rw [hi, hq0] at h
        rw [h]
        have : ((List.zipWith
            (fun (q : Q × V) (p : Q × Retrieval.QueryResultStep C V) =>
              (q.1, p.2.casebase)) queries sq).get
              ⟨i.1, by rw [List.length_zipWith]; omega⟩).2
            = ((sq.get ⟨i.1, by omega⟩).2).casebase := by
          simp [List.get_eq_getElem, List.getElem_zipWith]
        rw [this]
      rw [List.map_cons, List.chain'_cons]
      constructor
      · rw [hkstep, hcur]
        exact hsubhead
      · rw [hnextlookup] at hch
        rw [hkstep]
        exact hch

/-- C1 (amended): for every casebase, non-empty query mapping with distinct
keys, and non-empty sequence of `N` retrievers **that return one similarity
map per input pair using only keys present in that pair's (current)
casebase**, `apply_queries` returns a `Result` with exactly `N` steps whose
per-query casebase key sets shrink monotonically from step to step.  (The
restriction on the retrievers is forced: `build` resolves scored keys against
the original casebase, so an arbitrary retriever can re-introduce a key a
previous step dropped — see the counterexample.) -/
theorem claim1_theorem {Q C V : Type} [DecidableEq Q] [DecidableEq C]
    (casebase : List (C × V)) (queries : List (Q × V))
    (retrievers : List (Retrieval.RetrieverFunc C V))
    (_hq : queries ≠ []) (hnd : (queries.map Prod.fst).Nodup)
    (hret : retrievers ≠ [])
    (hr : ∀ r ∈ retrievers, ∀ inputs, (r.call inputs).length = inputs.length ∧
      List.Forall₂ (fun (inp : List (C × V) × V) out =>
        out.map Prod.fst ⊆ inp.1.map Prod.fst) inputs (r.call inputs)) :
    ∃ res, Retrieval.apply_queries casebase queries retrievers = Except.ok res ∧
      res.steps.length = retrievers.length ∧
      ∀ qk ∈ queries.map Prod.fst,
        List.Chain' (fun a b => b ⊆ a)
          (res.steps.map fun s => Retrieval.keysAt s qk) := by
  have hal : (queries.map fun q => (q.1, casebase)).map Prod.fst
      = queries.map Prod.fst := by simp
  have hsub : ∀ cb ∈ (queries.map fun q => (q.1, casebase)).map Prod.snd,
      cb.map Prod.fst ⊆ casebase.map Prod.fst := by
    intro cb hcb
    rw [List.map_map] at hcb
    obtain ⟨q, -, hq'⟩ := List.mem_map.mp hcb
    rw [← hq']
    exact fun k hk => hk
  obtain ⟨steps, hloop, hslen, hchain⟩ :=
    applyLoop_chain casebase queries hnd retrievers _ hal hsub hr
  refine ⟨⟨steps⟩, ?_, hslen, fun qk hqk => (hchain qk hqk).tail⟩
  have hpos : retrievers.length > 0 := List.length_pos.mpr hret
  simp only [Retrieval.apply_queries]
  rw [if_pos hpos, hloop]
  simp only [ok_bind, pure_eq_ok]

theorem claim1_counterexample :
    Except.map (fun (res : Retrieval.Result String String ℚ) =>
        res.steps.map fun s => Retrieval.keysAt s "q")
      (Retrieval.apply_queries cbAB qsQ [retConstA, retConstB])
      = Except.ok [["a"], ["b"]] ∧
    ¬ (["b"] : List String) ⊆ ["a"] :=
  ⟨rfl, by decide⟩

theorem claim1_witness :
    ∃ res,
      Retrieval.apply_queries cbAB qsQ [retKeepAll, retKeepAll]
        = Except.ok res ∧
      res.steps.length = 2 ∧
      ∀ qk ∈ qsQ.map Prod.fst,
        List.Chain' (fun a b => b ⊆ a)
          (res.steps.map fun s => Retrieval.keysAt s qk) :=
  claim1_theorem cbAB qsQ [retKeepAll, retKeepAll] (by decide) (by decide)
    (List.cons_ne_nil _ _)
    (by
      intro r hrm inputs
      have hre : r = retKeepAll := by
        rcases List.mem_cons.mp hrm with h | h
        · exact h
        · simpa using h
      subst hre
      refine ⟨by simp [retKeepAll], ?_⟩
      show List.Forall₂ _ inputs
        (inputs.map fun pr => pr.1.map fun kv => (kv.1, (1 : ℚ)))
      rw [List.forall₂_map_right_iff]
      rw [List.forall₂_same]
      intro pr hpr
      rw [List.map_map]
      intro k hk
      obtain ⟨kv, hkv, hkeq⟩ := List.mem_map.mp hk
      exact List.mem_map.mpr ⟨kv, hkv, hkeq⟩)
